import Mathlib

/-!
Verification of the response-cache subsystem of the `meeting_spy` repository.

Strings are modelled as lists of Unicode code points (`List Nat`); JavaScript
character classes (`\w`, `\s`) and `toLowerCase` are modelled on their ASCII
behaviour, which covers every input appearing in the claims.  JavaScript
numbers are modelled by rationals (`ℚ`); `Number.prototype.toFixed(1)` is
modelled by rounding to one decimal place (round half up).
-/

namespace MeetingSpy

/-- JS `\w` character class: `[A-Za-z0-9_]` (ASCII model). -/
def isWordChar (c : Nat) : Bool :=
  (48 ≤ c && c ≤ 57) || (65 ≤ c && c ≤ 90) || (97 ≤ c && c ≤ 122) || c = 95

/-- JS `\s` character class, restricted to its ASCII members:
space, tab, line feed, vertical tab, form feed, carriage return. -/
def isSpace (c : Nat) : Bool :=
  c = 32 || c = 9 || c = 10 || c = 11 || c = 12 || c = 13

/-- JS `String.prototype.toLowerCase`, per code point (ASCII model):
`A`–`Z` map to `a`–`z`, everything else is unchanged. -/
def jsToLower (c : Nat) : Nat :=
  if 65 ≤ c && c ≤ 90 then c + 32 else c

/-- Lowercasing a whole string (`toLowerCase`). -/
def lowerStr (l : List Nat) : List Nat := l.map jsToLower

/-- `replace(/[^\w\s]/g, ' ')`: every character that is neither a word
character nor whitespace becomes a space. -/
def punctToSpace (l : List Nat) : List Nat :=
  l.map fun c => if isWordChar c || isSpace c then c else 32

/-- Helper for `replace(/\s+/g, ' ')`: the flag records whether the previous
character belonged to a whitespace run that has already emitted its space. -/
def collapseAux : Bool → List Nat → List Nat
  | _, [] => []
  | prevSp, c :: rest =>
    if isSpace c then
      if prevSp then collapseAux true rest else 32 :: collapseAux true rest
    else c :: collapseAux false rest

/-- `replace(/\s+/g, ' ')`: each maximal whitespace run becomes one space. -/
def collapseWS (l : List Nat) : List Nat := collapseAux false l

/-- Drop the trailing whitespace run of a string. -/
def dropTrailingSpaces : List Nat → List Nat
  | [] => []
  | c :: rest =>
    let r := dropTrailingSpaces rest
    if r = [] && isSpace c then [] else c :: r

/-- JS `String.prototype.trim`: remove leading and trailing whitespace. -/
def trimList (l : List Nat) : List Nat :=
  dropTrailingSpaces (l.dropWhile fun c => isSpace c)

/-- `normalizeQuestion` from `server/index.mjs` (src/unnamed/part_000):
`q.toLowerCase().trim().replace(/[^\w\s]/g, ' ').replace(/\s+/g, ' ').slice(0, 200)`. -/
def normalizeQuestion (q : List Nat) : List Nat :=
  (collapseWS (punctToSpace (trimList (lowerStr q)))).take 200

/-! ## The Bounded Store: class `LRUCache` of src/unnamed/part_000 / part_001

The backing `Map` is modelled as an association list in insertion order
(oldest first), which is exactly the iteration order of a JS `Map`. -/

section LRU

variable {K V : Type} [DecidableEq K]

/-- `Map.prototype.get`: value of the first (unique) binding of `k`. -/
def lookupKV : List (K × V) → K → Option V
  | [], _ => none
  | (k', v) :: rest, k => if k' = k then some v else lookupKV rest k

/-- `Map.prototype.delete`: remove the binding of `k` (keys are unique). -/
def eraseKey : List (K × V) → K → List (K × V)
  | [], _ => []
  | (k', v) :: rest, k => if k' = k then rest else (k', v) :: eraseKey rest k

/-- State of the `LRUCache` class: bounded insertion-ordered map plus
hit/miss counters. -/
structure LRUCache (K V : Type) where
  maxSize : Nat
  cache : List (K × V)
  hits : Nat
  misses : Nat

/-- `new LRUCache(maxSize)`. -/
def LRUCache.empty (maxSize : Nat) : LRUCache K V :=
  { maxSize := maxSize, cache := [], hits := 0, misses := 0 }

/-- `LRUCache.get`: on hit, delete and re-insert the binding (moving it to
most-recently-used position) and bump `hits`; on miss bump `misses`. -/
def LRUCache.get (c : LRUCache K V) (k : K) : Option V × LRUCache K V :=
  match lookupKV c.cache k with
  | some v =>
    (some v, { c with cache := eraseKey c.cache k ++ [(k, v)], hits := c.hits + 1 })
  | none => (none, { c with misses := c.misses + 1 })

/-- `LRUCache.set`: if the key is present, delete it first (so the new binding
is appended at most-recently-used position); otherwise, if the store is at
capacity, delete the first key in iteration order before appending. -/
def LRUCache.set (c : LRUCache K V) (k : K) (v : V) : LRUCache K V :=
  if (lookupKV c.cache k).isSome then
    { c with cache := eraseKey c.cache k ++ [(k, v)] }
  else if c.maxSize ≤ c.cache.length then
    { c with cache := c.cache.drop 1 ++ [(k, v)] }
  else
    { c with cache := c.cache ++ [(k, v)] }

/-- `toFixed(1)` on a nonnegative value, as a rational: round to tenths. -/
def roundTenths (x : ℚ) : ℚ := ((⌊10 * x + 1 / 2⌋ : ℤ) : ℚ) / 10

/-- Result record of `LRUCache.getStats`. -/
structure CacheStats where
  size : Nat
  hits : Nat
  misses : Nat
  hitRate : ℚ

/-- `LRUCache.getStats`: size and counters, plus
`hitRate = total > 0 ? (hits / total * 100).toFixed(1) : 0`. -/
def LRUCache.getStats (c : LRUCache K V) : CacheStats :=
  { size := c.cache.length
    hits := c.hits
    misses := c.misses
    hitRate :=
      if 0 < c.hits + c.misses then
        roundTenths ((c.hits : ℚ) / ((c.hits : ℚ) + (c.misses : ℚ)) * 100)
      else 0 }

/-- One client call against the store. -/
inductive CacheOp (K V : Type) where
  | get (k : K)
  | set (k : K) (v : V)

/-- Apply one call to the store, keeping only the state. -/
def stepOp (c : LRUCache K V) : CacheOp K V → LRUCache K V
  | .get k => (c.get k).2
  | .set k v => c.set k v

/-- Run a sequence of calls from a given state. -/
def runOps (c : LRUCache K V) (ops : List (CacheOp K V)) : LRUCache K V :=
  ops.foldl stepOp c

/-- Number of `get` calls in a sequence. -/
def countGets : List (CacheOp K V) → Nat
  | [] => 0
  | .get _ :: rest => countGets rest + 1
  | .set _ _ :: rest => countGets rest

theorem lookupKV_isSome_length_eraseKey {l : List (K × V)} {k : K}
    (h : (lookupKV l k).isSome) : (eraseKey l k).length + 1 = l.length := by
  induction l with
  | nil => simp [lookupKV] at h
  | cons p rest ih =>
    obtain ⟨k', v⟩ := p
    by_cases hk : k' = k
    · simp [eraseKey, hk]
    · simp [lookupKV, hk] at h
      simp [eraseKey, hk, ih h]

theorem stepOp_maxSize (c : LRUCache K V) (op : CacheOp K V) :
    (stepOp c op).maxSize = c.maxSize := by
  cases op with
  | get k =>
    simp only [stepOp, LRUCache.get]
    cases lookupKV c.cache k <;> rfl
  | set k v =>
    simp only [stepOp, LRUCache.set]
    by_cases h1 : (lookupKV c.cache k).isSome <;>
      by_cases h2 : c.maxSize ≤ c.cache.length <;> simp [h1, h2]

theorem stepOp_length {c : LRUCache K V} (op : CacheOp K V)
    (hinv : c.cache.length ≤ c.maxSize) (hmax : 1 ≤ c.maxSize) :
    (stepOp c op).cache.length ≤ c.maxSize := by
  cases op with
  | get k =>
    simp only [stepOp, LRUCache.get]
    cases hl : lookupKV c.cache k with
    | none => simpa using hinv
    | some v =>
      have := lookupKV_isSome_length_eraseKey (l := c.cache) (k := k)
        (by simp [hl])
      simp only [List.length_append, List.length_cons, List.length_nil]
      omega
  | set k v =>
    simp only [stepOp, LRUCache.set]
    by_cases h1 : (lookupKV c.cache k).isSome
    · have := lookupKV_isSome_length_eraseKey (l := c.cache) (k := k) h1
      simp only [h1, if_true, List.length_append, List.length_cons,
        List.length_nil]
      omega
    · by_cases h2 : c.maxSize ≤ c.cache.length
      · simp only [h1, h2, if_true, if_false, Bool.false_eq_true,
          List.length_append, List.length_drop, List.length_cons,
          List.length_nil]
        omega
      · simp only [h1, h2, if_false, Bool.false_eq_true, List.length_append,
          List.length_cons, List.length_nil]
        omega

theorem runOps_length {c : LRUCache K V} (ops : List (CacheOp K V))
    (hinv : c.cache.length ≤ c.maxSize) (hmax : 1 ≤ c.maxSize) :
    (runOps c ops).cache.length ≤ (runOps c ops).maxSize := by
  induction ops generalizing c with
  | nil => simpa [runOps] using hinv
  | cons op rest ih =>
    have hstep := stepOp_length (c := c) op hinv hmax
    have hms := stepOp_maxSize c op
    have := ih (c := stepOp c op) (by rw [hms]; exact hstep) (by rw [hms]; exact hmax)
    simpa [runOps] using this

theorem stepOp_counters (c : LRUCache K V) (op : CacheOp K V) :
    (stepOp c op).hits + (stepOp c op).misses =
      c.hits + c.misses + countGets [op] := by
  cases op with
  | get k =>
    simp only [stepOp, LRUCache.get]
    cases lookupKV c.cache k <;> simp [countGets] <;> omega
  | set k v =>
    simp only [stepOp, LRUCache.set]
    by_cases h1 : (lookupKV c.cache k).isSome <;>
      by_cases h2 : c.maxSize ≤ c.cache.length <;> simp [h1, h2, countGets]

theorem runOps_counters (c : LRUCache K V) (ops : List (CacheOp K V)) :
    (runOps c ops).hits + (runOps c ops).misses =
      c.hits + c.misses + countGets ops := by
  induction ops generalizing c with
  | nil => simp [runOps, countGets]
  | cons op rest ih =>
    have h1 := stepOp_counters c op
    have h2 := ih (stepOp c op)
    simp only [runOps, List.foldl_cons] at *
    cases op with
    | get k => simp only [countGets] at *; omega
    | set k v => simp only [countGets] at *; omega

theorem runOps_maxSize (c : LRUCache K V) (ops : List (CacheOp K V)) :
    (runOps c ops).maxSize = c.maxSize := by
  induction ops generalizing c with
  | nil => rfl
  | cons op rest ih =>
    have := ih (stepOp c op)
    simp only [runOps, List.foldl_cons] at *
    rw [this, stepOp_maxSize]

end LRU

/-- C1: with `maxSize = 2`, after `set(A)`, `set(B)`, `set(C)` (distinct keys)
the key `A` has been evicted (`get(A)` misses) while `B` and `C` are present;
after then accessing `B` via `get` and inserting a fresh key `D` via `set`,
the evicted key is `C` (a later `get(C)` misses) and not `B` (`get(B)` hits). -/
theorem c1_lru_eviction_scenario :
    (let s3 := ((((LRUCache.empty 2 : LRUCache Nat Nat).set 0 10).set 1 11).set 2 12)
     ((s3.get 0).1 = none ∧ (s3.get 1).1 = some 11 ∧ (s3.get 2).1 = some 12) ∧
      (let s4 := (s3.get 0).2
       let s5 := (s4.get 1).2
       let s6 := s5.set 3 13
       (s6.get 2).1 = none ∧ (s6.get 1).1 = some 11)) := by
  decide

/-- C2: for every `maxSize ≥ 1` and every finite sequence of `get`/`set`
calls starting from an empty store, the number of stored entries never
exceeds `maxSize` (eviction before insert makes a capacity violation
impossible). -/
theorem c2_capacity_invariant {K V : Type} [DecidableEq K] (maxSize : Nat)
    (ops : List (CacheOp K V)) (hmax : 1 ≤ maxSize) :
    (runOps (LRUCache.empty maxSize) ops).cache.length ≤ maxSize := by
  have h := runOps_length (c := LRUCache.empty (K := K) (V := V) maxSize) ops
    (by simp [LRUCache.empty]) (by simpa [LRUCache.empty] using hmax)
  rwa [runOps_maxSize] at h

theorem c2_capacity_invariant_witness :
    1 ≤ 2 ∧ (runOps (LRUCache.empty 2 : LRUCache Nat Nat)
      [CacheOp.set 0 5, CacheOp.set 1 6, CacheOp.set 2 7,
       CacheOp.get 1]).cache.length ≤ 2 :=
  ⟨by decide, c2_capacity_invariant 2 _ (by decide)⟩

/-- C3 (counterexample to the claim as stated): after one `set` and one
hitting `get`, `getStats` reports `hitRate = 100` (a percentage, from
`(hits / total * 100).toFixed(1)`), not the fraction
`hits / (hits + misses) = 1` the claim describes. -/
theorem c3_counterexample :
    (runOps (LRUCache.empty 10 : LRUCache Nat Nat)
        [CacheOp.set 0 5, CacheOp.get 0]).getStats.hitRate ≠
      (((runOps (LRUCache.empty 10 : LRUCache Nat Nat)
            [CacheOp.set 0 5, CacheOp.get 0]).getStats.hits : ℚ) /
        (((runOps (LRUCache.empty 10 : LRUCache Nat Nat)
              [CacheOp.set 0 5, CacheOp.get 0]).getStats.hits : ℚ) +
          ((runOps (LRUCache.empty 10 : LRUCache Nat Nat)
              [CacheOp.set 0 5, CacheOp.get 0]).getStats.misses : ℚ))) := by
  have hrun : runOps (LRUCache.empty 10 : LRUCache Nat Nat)
      [CacheOp.set 0 5, CacheOp.get 0] =
      { maxSize := 10, cache := [(0, 5)], hits := 1, misses := 0 } := by rfl
  rw [hrun]
  norm_num [LRUCache.getStats, roundTenths]

/-- C3 (amended): for every sequence of calls from an empty store,
`getStats` reports `hits + misses` equal to the number of `get` calls made;
it reports `hitRate = 0` when no `get` call has yet been made, and otherwise
the hit percentage `hits / (hits + misses) * 100` rounded to one decimal
place (the claim's un-scaled fraction `hits / (hits + misses)` is what the
code multiplies by 100 and formats with `toFixed(1)`). -/
theorem c3_stats_amended {K V : Type} [DecidableEq K] (maxSize : Nat)
    (ops : List (CacheOp K V)) :
    ((runOps (LRUCache.empty maxSize) ops).getStats.hits +
        (runOps (LRUCache.empty maxSize) ops).getStats.misses = countGets ops) ∧
    (countGets ops = 0 →
      (runOps (LRUCache.empty maxSize) ops).getStats.hitRate = 0) ∧
    ((runOps (LRUCache.empty maxSize) ops).getStats.hitRate =
      if 0 < countGets ops then
        roundTenths
          (((runOps (LRUCache.empty maxSize) ops).getStats.hits : ℚ) /
              (((runOps (LRUCache.empty maxSize) ops).getStats.hits : ℚ) +
                ((runOps (LRUCache.empty maxSize) ops).getStats.misses : ℚ)) *
            100)
      else 0) := by
  have hc : (runOps (LRUCache.empty maxSize) ops).hits +
      (runOps (LRUCache.empty maxSize) ops).misses = countGets ops := by
    simpa [LRUCache.empty] using
      runOps_counters (LRUCache.empty (K := K) (V := V) maxSize) ops
  refine ⟨by simpa [LRUCache.getStats] using hc, ?_, ?_⟩
  · intro h0
    have : (runOps (LRUCache.empty maxSize) ops).hits +
        (runOps (LRUCache.empty maxSize) ops).misses = 0 := by omega
    simp [LRUCache.getStats, this]
  · simp only [LRUCache.getStats]
    rw [hc]

theorem c3_stats_amended_witness :
    countGets ([CacheOp.set 0 5] : List (CacheOp Nat Nat)) = 0 ∧
    (runOps (LRUCache.empty 10 : LRUCache Nat Nat)
      [CacheOp.set 0 5]).getStats.hitRate = 0 :=
  ⟨by decide, (c3_stats_amended 10 [CacheOp.set 0 5]).2.1 (by decide)⟩

/-! ## The Stream Replayer: cached-replay branch of `/api/ai/answer-stream`

`const words = cached.answer.split(' ');`
`for (let i = 0; i < words.length; i += 3) {`
`  const chunk = words.slice(i, i + 3).join(' ') + ' ';`
`  ... { type: 'content', content: chunk } ...`. -/

/-- `String.prototype.split(' ')`: split at every single space character
(consecutive spaces yield empty segments, as in JS). -/
def splitOnSp : List Nat → List (List Nat)
  | [] => [[]]
  | c :: rest =>
    match splitOnSp rest with
    | [] => [[]]
    | t :: ts => if c = 32 then [] :: t :: ts else (c :: t) :: ts

/-- `Array.prototype.join(' ')`. -/
def joinSp : List (List Nat) → List Nat
  | [] => []
  | [w] => w
  | w :: ws => w ++ 32 :: joinSp ws

/-- The word groups visited by `for (let i = 0; i < words.length; i += 3)`
with `words.slice(i, i + 3)`. -/
def chunksOf3 {α : Type} : List α → List (List α)
  | [] => []
  | [a] => [[a]]
  | [a, b] => [[a, b]]
  | a :: b :: c :: rest => [a, b, c] :: chunksOf3 rest

/-- The content chunks emitted by the cached-replay branch:
`words.slice(i, i + 3).join(' ') + ' '` for each group. -/
def replayChunks (answer : List Nat) : List (List Nat) :=
  (chunksOf3 (splitOnSp answer)).map fun g => joinSp g ++ [32]

/-- Concatenation of all emitted content chunks. -/
def replayConcat (answer : List Nat) : List Nat := (replayChunks answer).flatten

theorem splitOnSp_ne_nil (l : List Nat) : splitOnSp l ≠ [] := by
  cases l with
  | nil => simp [splitOnSp]
  | cons c rest =>
    simp only [splitOnSp]
    cases splitOnSp rest with
    | nil => simp
    | cons t ts => by_cases hc : c = 32 <;> simp [hc]

theorem joinSp_cons_of_ne (w : List Nat) {ws : List (List Nat)} (h : ws ≠ []) :
    joinSp (w :: ws) = w ++ 32 :: joinSp ws := by
  cases ws with
  | nil => exact absurd rfl h
  | cons t ts => rfl

theorem joinSp_splitOnSp (l : List Nat) : joinSp (splitOnSp l) = l := by
  induction l with
  | nil => rfl
  | cons c rest ih =>
    cases h : splitOnSp rest with
    | nil => exact absurd h (splitOnSp_ne_nil rest)
    | cons t ts =>
      rw [h] at ih
      by_cases hc : c = 32
      · subst hc
        show joinSp (splitOnSp (32 :: rest)) = 32 :: rest
        simp only [splitOnSp, h, if_true]
        rw [joinSp_cons_of_ne _ (List.cons_ne_nil t ts), ih]
        rfl
      · show joinSp (splitOnSp (c :: rest)) = c :: rest
        simp only [splitOnSp, h, if_neg hc]
        cases ts with
        | nil => simpa [joinSp] using ih
        | cons t' ts' =>
          rw [joinSp_cons_of_ne _ (List.cons_ne_nil t' ts')] at ih
          rw [joinSp_cons_of_ne _ (List.cons_ne_nil t' ts'), List.cons_append, ih]

theorem joinSp_append {a b : List (List Nat)} (ha : a ≠ []) (hb : b ≠ []) :
    joinSp (a ++ b) = joinSp a ++ 32 :: joinSp b := by
  induction a with
  | nil => exact absurd rfl ha
  | cons w ws ih =>
    cases ws with
    | nil => rw [List.cons_append, List.nil_append, joinSp_cons_of_ne _ hb]; rfl
    | cons t ts =>
      have ih' := ih (List.cons_ne_nil t ts)
      simp only [List.cons_append] at ih' ⊢
      rw [joinSp_cons_of_ne w (List.cons_ne_nil t (ts ++ b)),
        joinSp_cons_of_ne w (List.cons_ne_nil t ts), ih']
      simp [List.append_assoc]

theorem chunksOf3_join (ws : List (List Nat)) (hne : ws ≠ []) :
    ((chunksOf3 ws).map fun g => joinSp g ++ [32]).flatten = joinSp ws ++ [32] := by
  induction ws using chunksOf3.induct with
  | case1 => exact absurd rfl hne
  | case2 a => simp [chunksOf3, joinSp]
  | case3 a b => simp [chunksOf3, joinSp]
  | case4 a b c rest ih =>
    cases hr : rest with
    | nil => simp [chunksOf3, joinSp]
    | cons r rs =>
      subst hr
      have ih' := ih (List.cons_ne_nil r rs)
      rw [chunksOf3, List.map_cons, List.flatten_cons, ih']
      have happ := joinSp_append (a := [a, b, c]) (b := r :: rs)
        (List.cons_ne_nil a [b, c]) (List.cons_ne_nil r rs)
      simp only [List.cons_append, List.nil_append] at happ
      rw [happ]
      simp [List.append_assoc]

/-- C4 (counterexample to the claim as stated): for the cached answer `"a"`
the single emitted chunk is `"a "` — the concatenation of the emitted
content chunks is not exactly the cached answer text. -/
theorem c4_counterexample : replayConcat [97] ≠ [97] := by decide

/-- C4 (amended): for every cached answer, the concatenation of all content
chunks emitted by the cached-replay branch equals the cached answer text
followed by exactly one extra trailing space: each 3-word chunk is emitted
with `+ ' '` appended, which restores the separator between consecutive
chunks but appends one space after the final chunk. -/
theorem c4_replay_amended (answer : List Nat) :
    replayConcat answer = answer ++ [32] := by
  unfold replayConcat replayChunks
  rw [chunksOf3_join _ (splitOnSp_ne_nil answer), joinSp_splitOnSp]

/-! ## The Similarity Matcher: `jaccardSimilarity` of src/src/App.jsx

`const set1 = new Set(str1.toLowerCase().split(/\W+/).filter(w => w.length > 2));`
likewise `set2`; `intersection`, `union`;
`return union.size === 0 ? 0 : intersection.size / union.size;`
and the matcher judges entries via
`jaccardSimilarity(entry.question, normalizedQ) > SIMILARITY_THRESHOLD`. -/

/-- Maximal runs of word characters, accumulating the current (reversed) run.
`split(/\W+/)` additionally yields empty boundary segments, which the
`w.length > 2` filter applied right after removes, so they are dropped here. -/
def wordRunsAux : List Nat → List Nat → List (List Nat)
  | cur, [] => if cur = [] then [] else [cur.reverse]
  | cur, c :: rest =>
    if isWordChar c then wordRunsAux (c :: cur) rest
    else if cur = [] then wordRunsAux [] rest
    else cur.reverse :: wordRunsAux [] rest

/-- `str.split(/\W+/)` without the empty boundary segments. -/
def wordRuns (l : List Nat) : List (List Nat) := wordRunsAux [] l

/-- `new Set(str.toLowerCase().split(/\W+/).filter(w => w.length > 2))`. -/
def tokenSet (s : List Nat) : Finset (List Nat) :=
  ((wordRuns (lowerStr s)).filter fun w => 2 < w.length).toFinset

/-- `jaccardSimilarity(str1, str2)` from src/src/App.jsx. -/
def jaccardSimilarity (a b : List Nat) : ℚ :=
  if (tokenSet a ∪ tokenSet b).card = 0 then 0
  else ((tokenSet a ∩ tokenSet b).card : ℚ) / ((tokenSet a ∪ tokenSet b).card : ℚ)

/-- `const SIMILARITY_THRESHOLD = 0.75`. -/
def SIMILARITY_THRESHOLD : ℚ := 3 / 4

/-- The similarity judgment of the matcher's lookup scan:
`jaccardSimilarity(entry.question, normalizedQ) > SIMILARITY_THRESHOLD`. -/
def isSimilar (a b : List Nat) : Prop :=
  SIMILARITY_THRESHOLD < jaccardSimilarity a b

/-- Maximal runs of non-whitespace characters (spec-side tokenization). -/
def wsRunsAux : List Nat → List Nat → List (List Nat)
  | cur, [] => if cur = [] then [] else [cur.reverse]
  | cur, c :: rest =>
    if isSpace c then
      if cur = [] then wsRunsAux [] rest else cur.reverse :: wsRunsAux [] rest
    else wsRunsAux (c :: cur) rest

/-- Modelled from the spec's words for comparison (refinement check only):
whitespace-delimited tokens of the lowercased string, longer than 2
characters. -/
def tokenSetSpec (s : List Nat) : Finset (List Nat) :=
  ((wsRunsAux [] (lowerStr s)).filter fun w => 2 < w.length).toFinset

/-- Modelled from the spec's words for comparison (refinement check only):
`similarity = |intersection| / |union|` over whitespace tokens. -/
def jaccardSimilaritySpec (a b : List Nat) : ℚ :=
  if (tokenSetSpec a ∪ tokenSetSpec b).card = 0 then 0
  else ((tokenSetSpec a ∩ tokenSetSpec b).card : ℚ) /
    ((tokenSetSpec a ∪ tokenSetSpec b).card : ℚ)

/-- Modelled from the spec's words for comparison (refinement check only):
similar iff `similarity >= threshold` (0.75). -/
def isSimilarSpec (a b : List Nat) : Prop :=
  SIMILARITY_THRESHOLD ≤ jaccardSimilaritySpec a b

/-- C5 (counterexample to the claim as stated): the code's judgment differs
from the spec's "Jaccard over whitespace tokens ≥ 0.75" in two ways. First,
`"aaa bbb ccc"` vs `"aaa bbb ccc ddd"` has Jaccard exactly 3/4 under both
tokenizations: the spec judges similar (≥ 0.75) but the code does not
(strict >). Second, `"one-two three"` vs `"one two three"`: the code splits
on every non-word character (`/\W+/`), giving identical token sets (Jaccard
1, similar), while whitespace tokenization gives Jaccard 1/4 (not similar). -/
theorem c5_counterexample :
    (isSimilarSpec [97, 97, 97, 32, 98, 98, 98, 32, 99, 99, 99]
        [97, 97, 97, 32, 98, 98, 98, 32, 99, 99, 99, 32, 100, 100, 100] ∧
      ¬ isSimilar [97, 97, 97, 32, 98, 98, 98, 32, 99, 99, 99]
        [97, 97, 97, 32, 98, 98, 98, 32, 99, 99, 99, 32, 100, 100, 100]) ∧
    (isSimilar [111, 110, 101, 45, 116, 119, 111, 32, 116, 104, 114, 101, 101]
        [111, 110, 101, 32, 116, 119, 111, 32, 116, 104, 114, 101, 101] ∧
      ¬ isSimilarSpec [111, 110, 101, 45, 116, 119, 111, 32, 116, 104, 114, 101, 101]
        [111, 110, 101, 32, 116, 119, 111, 32, 116, 104, 114, 101, 101]) := by
  refine ⟨⟨?_, ?_⟩, ?_, ?_⟩
  · have hi : (tokenSetSpec [97, 97, 97, 32, 98, 98, 98, 32, 99, 99, 99] ∩
        tokenSetSpec [97, 97, 97, 32, 98, 98, 98, 32, 99, 99, 99, 32, 100, 100, 100]).card = 3 := by
      decide
    have hu : (tokenSetSpec [97, 97, 97, 32, 98, 98, 98, 32, 99, 99, 99] ∪
        tokenSetSpec [97, 97, 97, 32, 98, 98, 98, 32, 99, 99, 99, 32, 100, 100, 100]).card = 4 := by
      decide
    unfold isSimilarSpec jaccardSimilaritySpec SIMILARITY_THRESHOLD
    rw [hi, hu]
    norm_num
  · have hi : (tokenSet [97, 97, 97, 32, 98, 98, 98, 32, 99, 99, 99] ∩
        tokenSet [97, 97, 97, 32, 98, 98, 98, 32, 99, 99, 99, 32, 100, 100, 100]).card = 3 := by
      decide
    have hu : (tokenSet [97, 97, 97, 32, 98, 98, 98, 32, 99, 99, 99] ∪
        tokenSet [97, 97, 97, 32, 98, 98, 98, 32, 99, 99, 99, 32, 100, 100, 100]).card = 4 := by
      decide
    unfold isSimilar jaccardSimilarity SIMILARITY_THRESHOLD
    rw [hi, hu]
    norm_num
  · have hi : (tokenSet [111, 110, 101, 45, 116, 119, 111, 32, 116, 104, 114, 101, 101] ∩
        tokenSet [111, 110, 101, 32, 116, 119, 111, 32, 116, 104, 114, 101, 101]).card = 3 := by
      decide
    have hu : (tokenSet [111, 110, 101, 45, 116, 119, 111, 32, 116, 104, 114, 101, 101] ∪
        tokenSet [111, 110, 101, 32, 116, 119, 111, 32, 116, 104, 114, 101, 101]).card = 3 := by
      decide
    unfold isSimilar jaccardSimilarity SIMILARITY_THRESHOLD
    rw [hi, hu]
    norm_num
  · have hi : (tokenSetSpec [111, 110, 101, 45, 116, 119, 111, 32, 116, 104, 114, 101, 101] ∩
        tokenSetSpec [111, 110, 101, 32, 116, 119, 111, 32, 116, 104, 114, 101, 101]).card = 1 := by
      decide
    have hu : (tokenSetSpec [111, 110, 101, 45, 116, 119, 111, 32, 116, 104, 114, 101, 101] ∪
        tokenSetSpec [111, 110, 101, 32, 116, 119, 111, 32, 116, 104, 114, 101, 101]).card = 4 := by
      decide
    unfold isSimilarSpec jaccardSimilaritySpec SIMILARITY_THRESHOLD
    rw [hi, hu]
    norm_num

/-- C5 (amended): the matcher judges `a` and `b` similar iff the Jaccard
similarity computed over the sets of lowercased tokens delimited by runs of
NON-WORD characters (`/\W+/`) and longer than 2 characters is STRICTLY
greater than the threshold 0.75 — equivalently, iff
`3·|union| < 4·|intersection|` of those token sets. -/
theorem c5_similarity_amended (a b : List Nat) :
    isSimilar a b ↔
      3 * (tokenSet a ∪ tokenSet b).card < 4 * (tokenSet a ∩ tokenSet b).card := by
  unfold isSimilar jaccardSimilarity SIMILARITY_THRESHOLD
  by_cases h : (tokenSet a ∪ tokenSet b).card = 0
  · have hI : (tokenSet a ∩ tokenSet b).card = 0 :=
      Nat.le_zero.mp (h ▸ Finset.card_le_card Finset.inter_subset_union)
    rw [if_pos h, h, hI]
    norm_num
  · rw [if_neg h]
    have hU : (0 : ℚ) < ((tokenSet a ∪ tokenSet b).card : ℚ) := by
      exact_mod_cast Nat.pos_of_ne_zero h
    rw [div_lt_div_iff₀ (by norm_num) hU]
    constructor
    · intro hq
      have : 3 * (tokenSet a ∪ tokenSet b).card <
          (tokenSet a ∩ tokenSet b).card * 4 := by exact_mod_cast hq
      omega
    · intro hn
      have : 3 * (tokenSet a ∪ tokenSet b).card <
          (tokenSet a ∩ tokenSet b).card * 4 := by omega
      exact_mod_cast this

theorem c5_similarity_amended_witness :
    isSimilar [97, 97, 97] [97, 97, 97] :=
  (c5_similarity_amended [97, 97, 97] [97, 97, 97]).mpr (by decide)

/-- C10: when neither input has a token longer than 2 characters (both token
sets are empty, so the union is empty), `jaccardSimilarity` returns `0`
instead of dividing by zero, and hence two such strings — identical or not —
are never judged similar. -/
theorem c10_empty_tokens_never_similar (a b : List Nat)
    (ha : tokenSet a = ∅) (hb : tokenSet b = ∅) :
    jaccardSimilarity a b = 0 ∧ ¬ isSimilar a b := by
  have hu : (tokenSet a ∪ tokenSet b).card = 0 := by rw [ha, hb]; simp
  have hj : jaccardSimilarity a b = 0 := by
    unfold jaccardSimilarity
    rw [if_pos hu]
  refine ⟨hj, ?_⟩
  unfold isSimilar SIMILARITY_THRESHOLD
  rw [hj]
  norm_num

theorem c10_empty_tokens_never_similar_witness :
    tokenSet [97, 98, 32, 99, 100] = ∅ ∧
    (jaccardSimilarity [97, 98, 32, 99, 100] [97, 98, 32, 99, 100] = 0 ∧
      ¬ isSimilar [97, 98, 32, 99, 100] [97, 98, 32, 99, 100]) :=
  ⟨by decide, c10_empty_tokens_never_similar _ _ (by decide) (by decide)⟩

/-! ## The Generation Orchestrator: `/api/ai/answer-stream` cache contract

Control flow of the handler in src/server/index.mjs: consult the cache by
derived key; on hit, replay; on miss, call the external generator inside
`try { ... semanticCache.set(cacheKey, {...}) ... } catch (error) { ... }`,
so a generation failure skips the `set`.  The `semanticCache` store itself
(the npm `lru-cache` package) is not part of the repository; it is modelled
by the Bounded Store semantics of the repository's own `LRUCache`. -/

/-- What the handler sends over the SSE channel, abstracted to its provenance:
a cached replay, a live generation, or an error event. -/
inductive StreamOutcome (E A : Type) where
  | cachedReplay (answer : A)
  | live (answer : A)
  | failed (err : E)

/-- The cache interaction of the `/api/ai/answer-stream` handler: `get` by
key; on hit replay the cached entry; on miss run the generator, and only on
success `set` the accumulated answer (the `catch` branch performs no cache
write). -/
def answerStream {E A : Type} (c : LRUCache (List Nat) A) (key : List Nat)
    (gen : Except E A) : LRUCache (List Nat) A × StreamOutcome E A :=
  match c.get key with
  | (some e, c1) => (c1, .cachedReplay e)
  | (none, c1) =>
    match gen with
    | .ok ans => (c1.set key ans, .live ans)
    | .error err => (c1, .failed err)

/-- C7: if the external generation call fails on a cache miss, the error is
propagated to the caller as a request failure, the stored entries are
exactly what they were before the request, and in particular no entry of
any kind is stored for the request's key. -/
theorem c7_failure_leaves_cache_untouched {E A : Type} (c : LRUCache (List Nat) A)
    (key : List Nat) (err : E)
    (hmiss : lookupKV c.cache key = none) :
    (answerStream c key (Except.error err)).2 = StreamOutcome.failed err ∧
    (answerStream c key (Except.error err)).1.cache = c.cache ∧
    lookupKV (answerStream c key (Except.error err)).1.cache key = none := by
  unfold answerStream LRUCache.get
  rw [hmiss]
  exact ⟨rfl, rfl, hmiss⟩

theorem c7_failure_leaves_cache_untouched_witness :
    lookupKV (LRUCache.empty 5 : LRUCache (List Nat) Nat).cache [97] = none ∧
    ((answerStream (LRUCache.empty 5 : LRUCache (List Nat) Nat) [97]
        (Except.error true)).2 = StreamOutcome.failed true ∧
      (answerStream (LRUCache.empty 5 : LRUCache (List Nat) Nat) [97]
        (Except.error true)).1.cache = (LRUCache.empty 5 : LRUCache (List Nat) Nat).cache ∧
      lookupKV (answerStream (LRUCache.empty 5 : LRUCache (List Nat) Nat) [97]
        (Except.error true)).1.cache [97] = none) :=
  ⟨rfl, c7_failure_leaves_cache_untouched _ _ _ rfl⟩

/-! ## The Tiered Cache: `useSmartCache` of the src/server/index.mjs bundle

`getCached`: check the in-memory `Map` first; on miss check the persisted
`storageCache`; on storage hit, `memoryCache.current.set(normalizedKey,
value)` promotes the entry into the memory tier before returning it. -/

/-- JS `Map.prototype.set`: replace in place if the key is present,
otherwise append in insertion order. -/
def mapSet {K V : Type} [DecidableEq K] : List (K × V) → K → V → List (K × V)
  | [], k, v => [(k, v)]
  | (k', v') :: rest, k, v =>
    if k' = k then (k, v) :: rest else (k', v') :: mapSet rest k v

/-- `normalize` of the `useSmartCache` hook:
`key.toLowerCase().replace(/\s+/g, " ").trim()`. -/
def normalizeKeySC (k : List Nat) : List Nat := trimList (collapseWS (lowerStr k))

/-- State of the `useSmartCache` hook: fast in-memory tier, slow persisted
tier, and the hit/miss counters of its `stats` state. -/
structure SmartCache (V : Type) where
  mem : List (List Nat × V)
  storage : List (List Nat × V)
  hits : Nat
  misses : Nat

/-- Which tier served a `getCached` call — the instrumentation hook the
spec's tiered-promotion scenario asks for. -/
inductive GetSource where
  | memory
  | storage
  | missed
deriving DecidableEq

/-- `getCached` of the `useSmartCache` hook: memory tier first; on memory
miss and storage hit, promote into the memory map before returning. -/
def SmartCache.getCached {V : Type} (c : SmartCache V) (key : List Nat) :
    Option V × GetSource × SmartCache V :=
  match lookupKV c.mem (normalizeKeySC key) with
  | some v => (some v, .memory, { c with hits := c.hits + 1 })
  | none =>
    match lookupKV c.storage (normalizeKeySC key) with
    | some v => (some v, .storage,
        { c with hits := c.hits + 1, mem := mapSet c.mem (normalizeKeySC key) v })
    | none => (none, .missed, { c with misses := c.misses + 1 })

theorem lookupKV_mapSet_self {K V : Type} [DecidableEq K]
    (l : List (K × V)) (k : K) (v : V) :
    lookupKV (mapSet l k v) k = some v := by
  induction l with
  | nil => simp [mapSet, lookupKV]
  | cons p rest ih =>
    obtain ⟨k', v'⟩ := p
    by_cases hk : k' = k
    · simp [mapSet, hk, lookupKV]
    · simp [mapSet, hk, lookupKV, ih]

/-- C9: a `getCached` that misses the memory tier but hits the storage tier
returns the entry with provenance `storage` and promotes it into the memory
tier, so that an immediately repeated `getCached` of the same key returns
the same entry with provenance `memory` — served without consulting the
storage tier, which is left unchanged. -/
theorem c9_tiered_promotion {V : Type} (c : SmartCache V) (key : List Nat) (v : V)
    (hmem : lookupKV c.mem (normalizeKeySC key) = none)
    (hsto : lookupKV c.storage (normalizeKeySC key) = some v) :
    (c.getCached key).1 = some v ∧
    (c.getCached key).2.1 = GetSource.storage ∧
    ((c.getCached key).2.2.getCached key).1 = some v ∧
    ((c.getCached key).2.2.getCached key).2.1 = GetSource.memory ∧
    ((c.getCached key).2.2.getCached key).2.2.storage = c.storage := by
  have h1 : c.getCached key = (some v, .storage,
      { c with hits := c.hits + 1, mem := mapSet c.mem (normalizeKeySC key) v }) := by
    unfold SmartCache.getCached
    rw [hmem, hsto]
  have h2 : lookupKV (mapSet c.mem (normalizeKeySC key) v) (normalizeKeySC key) =
      some v := lookupKV_mapSet_self c.mem (normalizeKeySC key) v
  rw [h1]
  refine ⟨rfl, rfl, ?_, ?_, ?_⟩ <;>
    · show _
      unfold SmartCache.getCached
      rw [h2]

/-! ## The Key Deriver: `normalizeQuestion` and the scoped cache key

`const cacheKey = session?.jobProfileId ? `...jobProfileId...:...normalizedQ...` : normalizedQ;`
The delimiter `:` is a punctuation character, which normalization replaces
with a space, so it cannot occur in normalized text. -/

/-- Scoped cache-key construction of `/api/ai/answer`:
`${session.jobProfileId}:${normalizedQ}` (58 is the code of `:`). -/
def cacheKeyScoped (scope t : List Nat) : List Nat :=
  scope ++ 58 :: normalizeQuestion t

theorem mem_collapseAux {c : Nat} {b : Bool} {l : List Nat}
    (h : c ∈ collapseAux b l) : c = 32 ∨ (c ∈ l ∧ isSpace c = false) := by
  induction l generalizing b with
  | nil => simp [collapseAux] at h
  | cons d rest ih =>
    by_cases hd : isSpace d
    · cases b with
      | true =>
        simp only [collapseAux, hd, if_true] at h
        rcases ih h with h32 | ⟨hm, hns⟩
        · exact Or.inl h32
        · exact Or.inr ⟨List.mem_cons_of_mem d hm, hns⟩
      | false =>
        simp only [collapseAux, hd, if_true] at h
        rcases List.mem_cons.mp h with h32 | h'
        · exact Or.inl h32
        · rcases ih h' with h32 | ⟨hm, hns⟩
          · exact Or.inl h32
          · exact Or.inr ⟨List.mem_cons_of_mem d hm, hns⟩
    · simp only [collapseAux, hd, Bool.false_eq_true, if_false] at h
      rcases List.mem_cons.mp h with hcd | h'
      · subst hcd
        exact Or.inr ⟨List.mem_cons_self c rest, by simpa using hd⟩
      · rcases ih h' with h32 | ⟨hm, hns⟩
        · exact Or.inl h32
        · exact Or.inr ⟨List.mem_cons_of_mem d hm, hns⟩

theorem punctToSpace_chars (l : List Nat) :
    ∀ c ∈ punctToSpace l, isWordChar c = true ∨ isSpace c = true := by
  intro c hc
  simp only [punctToSpace, List.mem_map] at hc
  obtain ⟨d, _, rfl⟩ := hc
  by_cases h : isWordChar d || isSpace d
  · rw [if_pos h]
    simpa using h
  · rw [if_neg h]
    right
    decide

theorem normalizeQuestion_chars (q : List Nat) :
    ∀ c ∈ normalizeQuestion q, isWordChar c = true ∨ c = 32 := by
  intro c hc
  have hc' : c ∈ collapseWS (punctToSpace (trimList (lowerStr q))) :=
    List.take_subset _ _ hc
  rcases mem_collapseAux (b := false) hc' with h32 | ⟨hm, hns⟩
  · exact Or.inr h32
  · rcases punctToSpace_chars _ c hm with hw | hs
    · exact Or.inl hw
    · rw [hns] at hs
      cases hs

theorem colon_not_mem_normalizeQuestion (q : List Nat) :
    58 ∉ normalizeQuestion q := by
  intro h
  rcases normalizeQuestion_chars q 58 h with hw | h32
  · exact absurd hw (by decide)
  · exact absurd h32 (by decide)

theorem colon_split_inj (x : List Nat) :
    ∀ (y u v : List Nat), 58 ∉ x → 58 ∉ y →
      x ++ 58 :: u = y ++ 58 :: v → x = y ∧ u = v := by
  induction x with
  | nil =>
    intro y u v _ hy h
    cases y with
    | nil =>
      simp only [List.nil_append, List.cons.injEq] at h
      exact ⟨rfl, h.2⟩
    | cons d y' =>
      simp only [List.nil_append, List.cons_append, List.cons.injEq] at h
      exact absurd (h.1 ▸ List.mem_cons_self d y') hy
  | cons d x' ih =>
    intro y u v hx hy h
    cases y with
    | nil =>
      simp only [List.cons_append, List.nil_append, List.cons.injEq] at h
      exact absurd (h.1 ▸ List.mem_cons_self d x') hx
    | cons e y' =>
      simp only [List.cons_append, List.cons.injEq] at h
      have hx' : (58 : Nat) ∉ x' := fun hm => hx (List.mem_cons_of_mem d hm)
      have hy' : (58 : Nat) ∉ y' := fun hm => hy (List.mem_cons_of_mem e hm)
      have := ih y' u v hx' hy' h.2
      exact ⟨by rw [h.1, this.1], this.2⟩

/-- C8: scoped key derivation is injective up to normalization — equal keys
force equal scopes and equal normalized texts, because the `:` delimiter is
stripped by `normalizeQuestion` and therefore never occurs in the normalized
text; in particular scope `"1"` with text normalizing to `"2:x"` is
impossible and cannot collide with scope `"1:2"` and text `"x"`. -/
theorem c8_scoped_key_injective (s1 s2 t1 t2 : List Nat)
    (h : cacheKeyScoped s1 t1 = cacheKeyScoped s2 t2) :
    s1 = s2 ∧ normalizeQuestion t1 = normalizeQuestion t2 := by
  unfold cacheKeyScoped at h
  have hr := congrArg List.reverse h
  simp only [List.reverse_append, List.reverse_cons, List.append_assoc,
    List.singleton_append] at hr
  have hx : (58 : Nat) ∉ (normalizeQuestion t1).reverse := by
    rw [List.mem_reverse]
    exact colon_not_mem_normalizeQuestion t1
  have hy : (58 : Nat) ∉ (normalizeQuestion t2).reverse := by
    rw [List.mem_reverse]
    exact colon_not_mem_normalizeQuestion t2
  obtain ⟨h1, h2⟩ := colon_split_inj _ _ _ _ hx hy hr
  exact ⟨List.reverse_injective h2, List.reverse_injective h1⟩

theorem c8_scoped_key_injective_witness :
    cacheKeyScoped [49] [88] = cacheKeyScoped [49] [120] ∧
    (([49] : List Nat) = [49] ∧ normalizeQuestion [88] = normalizeQuestion [120]) :=
  ⟨by decide, c8_scoped_key_injective [49] [49] [88] [120] (by decide)⟩

/-! ## C6: behaviour of `normalizeQuestion` under repeated application

`normalizeQuestion` trims BEFORE replacing punctuation with spaces, so a
punctuation character at either end of the (trimmed) input leaves a leading
or trailing space in the output, which a second application then removes.
The second application changes nothing else: we prove
`normalizeQuestion (normalizeQuestion q) = trimList (normalizeQuestion q)`. -/

/-- No two adjacent whitespace characters. -/
def noDoubleSpace : List Nat → Bool
  | [] => true
  | [_] => true
  | a :: b :: rest => (!(isSpace a && isSpace b)) && noDoubleSpace (b :: rest)

/-- The list is empty or starts with a non-whitespace character. -/
def headNotSpace : List Nat → Prop
  | [] => True
  | c :: _ => isSpace c = false

theorem jsToLower_idem (c : Nat) : jsToLower (jsToLower c) = jsToLower c := by
  unfold jsToLower
  by_cases h : (65 ≤ c && c ≤ 90) = true
  · rw [if_pos h]
    have h' : ¬((65 ≤ c + 32 && c + 32 ≤ 90) = true) := by
      simp only [Bool.and_eq_true, decide_eq_true_eq] at h ⊢
      omega
    rw [if_neg h']
  · rw [if_neg h, if_neg h]

theorem word_not_space {c : Nat} (h : isWordChar c = true) : isSpace c = false := by
  rw [Bool.eq_false_iff]
  intro hs
  unfold isWordChar at h
  unfold isSpace at hs
  simp only [Bool.or_eq_true, Bool.and_eq_true, decide_eq_true_eq] at h hs
  omega

theorem map_id_of_mem {f : Nat → Nat} :
    ∀ l : List Nat, (∀ c ∈ l, f c = c) → l.map f = l := by
  intro l h
  induction l with
  | nil => rfl
  | cons c rest ih =>
    rw [List.map_cons, h c (List.mem_cons_self c rest),
      ih fun d hd => h d (List.mem_cons_of_mem c hd)]

theorem dropWhile_subset_self (p : Nat → Bool) (l : List Nat) :
    l.dropWhile p ⊆ l := by
  induction l with
  | nil => simp
  | cons c rest ih =>
    rw [List.dropWhile_cons]
    by_cases h : p c
    · rw [if_pos h]
      exact fun d hd => List.mem_cons_of_mem c (ih hd)
    · rw [if_neg h]
      exact List.Subset.refl _

theorem dropTrailingSpaces_subset (l : List Nat) : dropTrailingSpaces l ⊆ l := by
  induction l with
  | nil => simp [dropTrailingSpaces]
  | cons c rest ih =>
    show dropTrailingSpaces (c :: rest) ⊆ c :: rest
    unfold dropTrailingSpaces
    by_cases h : (dropTrailingSpaces rest = [] && isSpace c) = true
    · rw [if_pos h]
      simp
    · rw [if_neg h]
      exact List.cons_subset_cons c ih

theorem trimList_subset (l : List Nat) : trimList l ⊆ l :=
  fun _ hd =>
    dropWhile_subset_self _ l (dropTrailingSpaces_subset _ hd)

theorem dropTrailingSpaces_length_le (l : List Nat) :
    (dropTrailingSpaces l).length ≤ l.length := by
  induction l with
  | nil => simp [dropTrailingSpaces]
  | cons c rest ih =>
    show (dropTrailingSpaces (c :: rest)).length ≤ (c :: rest).length
    unfold dropTrailingSpaces
    by_cases h : (dropTrailingSpaces rest = [] && isSpace c) = true
    · rw [if_pos h]
      simp
    · rw [if_neg h]
      simpa using ih

theorem dropWhile_length_le (p : Nat → Bool) (l : List Nat) :
    (l.dropWhile p).length ≤ l.length := by
  induction l with
  | nil => simp
  | cons c rest ih =>
    rw [List.dropWhile_cons]
    by_cases h : p c
    · rw [if_pos h]
      exact le_trans ih (by simp)
    · rw [if_neg h]

theorem trimList_length_le (l : List Nat) : (trimList l).length ≤ l.length :=
  le_trans (dropTrailingSpaces_length_le _) (dropWhile_length_le _ _)

theorem noDoubleSpace_tail {a : Nat} {l : List Nat}
    (h : noDoubleSpace (a :: l) = true) : noDoubleSpace l = true := by
  cases l with
  | nil => rfl
  | cons b rest =>
    have : noDoubleSpace (a :: b :: rest) =
        ((!(isSpace a && isSpace b)) && noDoubleSpace (b :: rest)) := rfl
    rw [this, Bool.and_eq_true] at h
    exact h.2

theorem noDoubleSpace_cons_of_headNotSpace (a : Nat) {l : List Nat}
    (h1 : headNotSpace l) (h2 : noDoubleSpace l = true) :
    noDoubleSpace (a :: l) = true := by
  cases l with
  | nil => rfl
  | cons b rest =>
    have hb : isSpace b = false := h1
    show ((!(isSpace a && isSpace b)) && noDoubleSpace (b :: rest)) = true
    rw [hb, h2]
    simp

theorem noDoubleSpace_cons_of_not_space {a : Nat} (ha : isSpace a = false)
    {l : List Nat} (h2 : noDoubleSpace l = true) :
    noDoubleSpace (a :: l) = true := by
  cases l with
  | nil => rfl
  | cons b rest =>
    show ((!(isSpace a && isSpace b)) && noDoubleSpace (b :: rest)) = true
    rw [ha, h2]
    simp

theorem headNotSpace_collapseAux_true (l : List Nat) :
    headNotSpace (collapseAux true l) := by
  induction l with
  | nil => trivial
  | cons c rest ih =>
    by_cases hc : isSpace c = true
    · simpa [collapseAux, hc] using ih
    · simp only [collapseAux, hc, Bool.false_eq_true, if_false]
      show isSpace c = false
      exact Bool.eq_false_iff.mpr hc

theorem noDoubleSpace_collapseAux (l : List Nat) :
    ∀ b, noDoubleSpace (collapseAux b l) = true := by
  induction l with
  | nil => intro b; rfl
  | cons c rest ih =>
    intro b
    by_cases hc : isSpace c = true
    · cases b with
      | true => simpa [collapseAux, hc] using ih true
      | false =>
        simp only [collapseAux, hc, if_true]
        exact noDoubleSpace_cons_of_headNotSpace 32
          (headNotSpace_collapseAux_true rest) (ih true)
    · simp only [collapseAux, hc, Bool.false_eq_true, if_false]
      exact noDoubleSpace_cons_of_not_space (by simpa using hc) (ih false)

theorem noDoubleSpace_append_left {x y : List Nat}
    (h : noDoubleSpace (x ++ y) = true) : noDoubleSpace x = true := by
  induction x with
  | nil => rfl
  | cons a x' ih =>
    cases x' with
    | nil => rfl
    | cons b x'' =>
      have hchar : noDoubleSpace (a :: b :: (x'' ++ y)) =
          ((!(isSpace a && isSpace b)) && noDoubleSpace (b :: (x'' ++ y))) := rfl
      rw [List.cons_append, List.cons_append] at h
      rw [hchar, Bool.and_eq_true] at h
      have hx' : noDoubleSpace (b :: x'') = true := by
        apply ih
        rw [List.cons_append]
        exact h.2
      show ((!(isSpace a && isSpace b)) && noDoubleSpace (b :: x'')) = true
      rw [h.1, hx']
      rfl

theorem noDoubleSpace_take (l : List Nat) (n : Nat)
    (h : noDoubleSpace l = true) : noDoubleSpace (l.take n) = true := by
  apply noDoubleSpace_append_left (y := l.drop n)
  rwa [List.take_append_drop]

theorem noDoubleSpace_dropWhile (p : Nat → Bool) (l : List Nat)
    (h : noDoubleSpace l = true) : noDoubleSpace (l.dropWhile p) = true := by
  induction l with
  | nil => rfl
  | cons c rest ih =>
    rw [List.dropWhile_cons]
    by_cases hp : p c
    · rw [if_pos hp]
      exact ih (noDoubleSpace_tail h)
    · rw [if_neg hp]
      exact h

theorem dropTrailingSpaces_nil_or_head (l : List Nat) :
    dropTrailingSpaces l = [] ∨
      ∃ c rest', l.head? = some c ∧ dropTrailingSpaces l = c :: rest' := by
  cases l with
  | nil => exact Or.inl rfl
  | cons c rest =>
    show _ ∨ ∃ c' rest', some c = some c' ∧ dropTrailingSpaces (c :: rest) = c' :: rest'
    unfold dropTrailingSpaces
    by_cases h : (dropTrailingSpaces rest = [] && isSpace c) = true
    · rw [if_pos h]
      exact Or.inl rfl
    · rw [if_neg h]
      exact Or.inr ⟨c, dropTrailingSpaces rest, rfl, rfl⟩

theorem noDoubleSpace_dropTrailingSpaces (l : List Nat)
    (h : noDoubleSpace l = true) :
    noDoubleSpace (dropTrailingSpaces l) = true := by
  induction l with
  | nil => rfl
  | cons c rest ih =>
    show noDoubleSpace (dropTrailingSpaces (c :: rest)) = true
    unfold dropTrailingSpaces
    by_cases hb : (dropTrailingSpaces rest = [] && isSpace c) = true
    · rw [if_pos hb]
      rfl
    · rw [if_neg hb]
      have hrest := ih (noDoubleSpace_tail h)
      rcases dropTrailingSpaces_nil_or_head rest with hnil | ⟨d, rest', hhd, heq⟩
      · rw [hnil]
        rfl
      · rw [heq] at hrest ⊢
        cases rest with
        | nil => cases hhd
        | cons e rest'' =>
          have hde : e = d := by
            simpa using hhd
          subst hde
          have hpair : (!(isSpace c && isSpace e)) = true := by
            have : noDoubleSpace (c :: e :: rest'') =
                ((!(isSpace c && isSpace e)) && noDoubleSpace (e :: rest'')) := rfl
            rw [this, Bool.and_eq_true] at h
            exact h.1
          show ((!(isSpace c && isSpace e)) && noDoubleSpace (e :: rest')) = true
          rw [hpair, hrest]
          rfl

theorem noDoubleSpace_trimList (l : List Nat) (h : noDoubleSpace l = true) :
    noDoubleSpace (trimList l) = true :=
  noDoubleSpace_dropTrailingSpaces _ (noDoubleSpace_dropWhile _ _ h)

theorem punctToSpace_id {l : List Nat}
    (h : ∀ c ∈ l, isWordChar c = true ∨ isSpace c = true) :
    punctToSpace l = l := by
  unfold punctToSpace
  apply map_id_of_mem
  intro c hc
  rcases h c hc with hw | hs
  · rw [if_pos (by rw [hw]; rfl)]
  · rw [if_pos (by rw [hs]; simp)]

theorem collapseAux_id {l : List Nat}
    (hsp : ∀ c ∈ l, isSpace c = true → c = 32)
    (hnd : noDoubleSpace l = true) :
    ∀ b, (b = true → headNotSpace l) → collapseAux b l = l := by
  induction l with
  | nil => intro b _; rfl
  | cons c rest ih =>
    intro b hb
    by_cases hc : isSpace c = true
    · have hbf : b = false := by
        cases b with
        | false => rfl
        | true =>
          have : isSpace c = false := hb rfl
          rw [this] at hc
          cases hc
      subst hbf
      have hc32 : c = 32 := hsp c (List.mem_cons_self c rest) hc
      simp only [collapseAux, hc, if_true, Bool.false_eq_true, if_false]
      have hrest : collapseAux true rest = rest := by
        apply ih (fun d hd => hsp d (List.mem_cons_of_mem c hd))
          (noDoubleSpace_tail hnd) true
        intro _
        cases rest with
        | nil => trivial
        | cons d rest' =>
          have : noDoubleSpace (c :: d :: rest') =
              ((!(isSpace c && isSpace d)) && noDoubleSpace (d :: rest')) := rfl
          rw [this, Bool.and_eq_true] at hnd
          have := hnd.1
          rw [hc] at this
          simpa using this
      rw [hrest, hc32]
    · simp only [collapseAux, hc, Bool.false_eq_true, if_false]
      rw [ih (fun d hd => hsp d (List.mem_cons_of_mem c hd))
        (noDoubleSpace_tail hnd) false (by intro h; cases h)]

theorem mem_normalizeQuestion_lower (q : List Nat) :
    ∀ c ∈ normalizeQuestion q, jsToLower c = c := by
  intro c hc
  have hc' : c ∈ collapseWS (punctToSpace (trimList (lowerStr q))) :=
    List.take_subset _ _ hc
  rcases mem_collapseAux (b := false) hc' with h32 | ⟨hm, _⟩
  · subst h32
    rfl
  · simp only [punctToSpace, List.mem_map] at hm
    obtain ⟨d, hd, hde⟩ := hm
    by_cases hcase : (isWordChar d || isSpace d) = true
    · rw [if_pos hcase] at hde
      subst hde
      have hd' : d ∈ lowerStr q := trimList_subset _ hd
      simp only [lowerStr, List.mem_map] at hd'
      obtain ⟨e, _, hed⟩ := hd'
      rw [← hed]
      exact jsToLower_idem e
    · rw [if_neg hcase] at hde
      subst hde
      rfl

/-- C6 (counterexample to the claim as stated): for the question `"!a"`,
normalization gives `" a"` (trim runs before the punctuation strip, so the
space left behind by `!` survives), and deriving a key from that normalized
form gives `"a"` — so `deriveKey(normalize(q)) ≠ deriveKey(q)`. -/
theorem c6_counterexample :
    normalizeQuestion (normalizeQuestion [33, 97]) ≠ normalizeQuestion [33, 97] := by
  decide

/-- C6 (amended): deriving a key from the already-normalized form of `q`
yields the trim of the key derived from `q` directly:
`normalizeQuestion (normalizeQuestion q) = trimList (normalizeQuestion q)`.
Hence the claimed idempotence holds exactly when `normalizeQuestion q`
carries no leading/trailing space, and fails otherwise (punctuation at the
ends of the trimmed input becomes an untrimmed edge space). -/
theorem c6_normalize_amended (q : List Nat) :
    normalizeQuestion (normalizeQuestion q) = trimList (normalizeQuestion q) := by
  have hchars : ∀ c ∈ normalizeQuestion q, isWordChar c = true ∨ c = 32 :=
    normalizeQuestion_chars q
  have h1 : lowerStr (normalizeQuestion q) = normalizeQuestion q :=
    map_id_of_mem _ (mem_normalizeQuestion_lower q)
  have h2 : punctToSpace (trimList (normalizeQuestion q)) =
      trimList (normalizeQuestion q) := by
    apply punctToSpace_id
    intro c hc
    rcases hchars c (trimList_subset _ hc) with hw | h32
    · exact Or.inl hw
    · subst h32
      exact Or.inr (by decide)
  have hnd : noDoubleSpace (normalizeQuestion q) = true :=
    noDoubleSpace_take _ _ (noDoubleSpace_collapseAux _ false)
  have h3 : collapseWS (trimList (normalizeQuestion q)) =
      trimList (normalizeQuestion q) := by
    apply collapseAux_id _ (noDoubleSpace_trimList _ hnd) false
    · intro h
      cases h
    · intro c hc hs
      rcases hchars c (trimList_subset _ hc) with hw | h32
      · rw [word_not_space hw] at hs
        cases hs
      · exact h32
  have h4 : (trimList (normalizeQuestion q)).take 200 =
      trimList (normalizeQuestion q) := by
    apply List.take_of_length_le
    calc (trimList (normalizeQuestion q)).length
        ≤ (normalizeQuestion q).length := trimList_length_le _
      _ ≤ 200 := by
          unfold normalizeQuestion
          exact List.length_take_le _ _
  show (collapseWS (punctToSpace (trimList (lowerStr (normalizeQuestion q))))).take 200 =
    trimList (normalizeQuestion q)
  rw [h1, h2, h3, h4]

theorem c9_tiered_promotion_witness :
    lookupKV (SmartCache.mk (V := Nat) [] [([97], 7)] 0 0).mem
        (normalizeKeySC [97]) = none ∧
    lookupKV (SmartCache.mk (V := Nat) [] [([97], 7)] 0 0).storage
        (normalizeKeySC [97]) = some 7 ∧
    (((SmartCache.mk (V := Nat) [] [([97], 7)] 0 0).getCached [97]).2.2.getCached
        [97]).2.1 = GetSource.memory :=
  ⟨by decide, by decide,
    (c9_tiered_promotion (SmartCache.mk [] [([97], 7)] 0 0) [97] 7
      (by decide) (by decide)).2.2.2.1⟩

end MeetingSpy
